import Mathlib

/-!
# Verification of the napari-lumen-segmentation layer-editing workflow

This file gives a shallow embedding, in Lean 4, of the computational core of the
`napari-lumen-segmentation` plugin (size filter, smoothing, image calculator,
connected components, keep-largest-cluster, the chunked per-timepoint write/reload
loop, and the chunked-to-eager conversion), together with theorems settling the
specification's testable properties against that embedding.

Modelling conventions:
* a 3D label stack (one timepoint) is modelled as a flattened `List Nat` of voxel
  values (`Slice`); label `0` is background;
* a 4D volume is a `List Slice` (one slice per timepoint);
* a dask (lazily chunked) volume is a list of thunks, materialised per timepoint
  by `.compute()`;
* `np.array(x, dtype="uint16")` is modelled as value-wise reduction mod 2^16;
* Python exceptions (e.g. `functools.reduce` over an empty sequence) are
  modelled by `Option`, `none` being the raised exception;
* the scipy median filter is an external library call and enters the embedding
  as an opaque shape-preserving function parameter;
* float arithmetic of `np.divide` is modelled over `ℚ`: the claim under study
  concerns only the `where=`-guard, which is independent of rounding;
* a directory on disk is a `List (String × Slice)` association list from file
  path to stored image.
-/

/-- A flattened 3D stack of voxel label values.  Label `0` is background. -/
abbrev Slice := List Nat

/-- `np.array(s, dtype="uint16")`: every value is reduced mod 2^16. -/
def npUint16 (n : Nat) : Nat := n % 65536

/-- Elementwise uint16 cast of a slice, as performed by `tifffile.imwrite`
calls that first cast with `np.array(..., dtype="uint16")`. -/
def cast16 (s : Slice) : Slice := s.map npUint16

/-! ## Size filter (`size_filter_widget.py`, `SizeFilterWidget._delete_objects`) -/

/-- The labels found by `skimage.measure.regionprops` on a label image: the
distinct nonzero values present (`regionprops` reports one region per distinct
positive label value; its `area` is that value's voxel count). -/
def labelsOf (s : Slice) : List Nat := s.dedup.filter (fun l => l ≠ 0)

/-- `filtered_labels`: the labels whose voxel count (`p.area`) satisfies
`p.area >= min_size and p.area <= max_size`. -/
def filteredLabels (minSize maxSize : Nat) (s : Slice) : List Nat :=
  (labelsOf s).filter (fun l => minSize ≤ s.count l ∧ s.count l ≤ maxSize)

/-- One application of the size filter to a 3D stack:
`mask = functools.reduce(np.logical_or, (s == val for val in filtered_labels))`
followed by `np.where(mask, s, 0)`.  `functools.reduce` without an initial
value raises `TypeError` on an empty sequence, modelled by `none`. -/
def sizeFilterSlice (minSize maxSize : Nat) (s : Slice) : Option Slice :=
  match filteredLabels minSize maxSize s with
  | [] => none
  | ls => some (s.map (fun x => if x ∈ ls then x else 0))

/-- The 4D eager path of `_delete_objects`: the per-timepoint filter applied to
every timepoint; a raised exception in any timepoint aborts the whole
invocation before `np.stack`/`add_labels`. -/
def sizeFilter4D (minSize maxSize : Nat) (tps : List Slice) : Option (List Slice) :=
  tps.mapM (sizeFilterSlice minSize maxSize)

/-- The 3D eager path of `_delete_objects` at the widget level: on success the
filtered volume is added as a new layer named `<name>_sizefiltered`; on an
exception no layer is added. -/
def deleteObjects3D (minSize maxSize : Nat) (layers : List (String × Slice))
    (selName : String) (selData : Slice) : Option (List (String × Slice)) :=
  (sizeFilterSlice minSize maxSize selData).map
    (fun out => layers ++ [(selName ++ "_sizefiltered", out)])

/-! ## Smoothing (`segmentation/smoothing_widget.py`, `SmoothingWidget._smooth_objects`) -/

/-- `mask = (smoothed != 0) & (current_stack == 0); result = current_stack.copy();
result[mask] = smoothed[mask]`: filtered values are written only into voxels
that were background in the original. -/
def smoothCombine (s smoothed : Slice) : Slice :=
  List.zipWith (fun x m => if m ≠ 0 ∧ x = 0 then m else x) s smoothed

/-- The 3D eager path of `_smooth_objects`: `n_iterations` rounds of
median-filter-then-combine applied to a deep copy of the input.
`mf` is the external `scipy.ndimage.median_filter`. -/
def smoothIter (mf : Slice → Slice) : Nat → Slice → Slice
  | 0, s => s
  | n + 1, s => smoothIter mf n (smoothCombine s (mf s))

/-- The per-timepoint body of the chunked and 4D paths of `_smooth_objects`
(one median filter + combine per timepoint). -/
def smoothSlice (mf : Slice → Slice) (s : Slice) : Slice :=
  smoothCombine s (mf s)

/-! ## Image calculator (`_widget.py`, `AnnotateLabelsND._calculate_images`) -/

/-- `np.divide(a, b, out=np.zeros_like(a, dtype=float), where=b != 0)`:
at positions where `where` is false the untouched `out` value (0) is returned;
elsewhere the quotient is computed.  Pixels are modelled over `ℚ`. -/
def npDivide (a b : List ℚ) : List ℚ :=
  List.zipWith (fun x y => if y ≠ 0 then x / y else 0) a b

/-! ## Chunked-to-eager conversion (`layer_selection/layer_manager.py`,
`LayerManager._convert_to_array`) -/

/-- The data held by a napari layer: either a dask array (list of lazily
computed timepoint chunks) or an in-memory numpy array (list of timepoint
slices). -/
inductive LabelData where
  | chunked : List (Unit → Slice) → LabelData
  | inMemory : List Slice → LabelData

/-- `np.stack(stack, axis=0)` over a list of equal-shape 3D stacks: the 4D
volume whose timepoint `i` is the `i`-th input. -/
def npStack (xs : List Slice) : List Slice := xs

/-- `LayerManager._convert_to_array`: when the selected data is a dask array,
each timepoint is `.compute()`d and the results are stacked along axis 0;
otherwise the data is left untouched. -/
def convertToArray : LabelData → LabelData
  | .chunked cs => .inMemory (npStack (cs.map (fun c => c ())))
  | .inMemory xs => .inMemory xs

/-! ## Theorems -/

/-- **C1** Size filter: on every successful invocation, the output is the
input with every voxel mapped to itself exactly when its (nonzero) label's
voxel count `v` satisfies `min_size ≤ v ≤ max_size` (inclusive on both ends),
and to background (0) otherwise; in particular surviving objects keep their
label value and background voxels (0) are never altered.  This per-slice
transform is the one applied by the 3D eager path, per timepoint by the 4D
eager path, and per timepoint — before the uint16 write — by the chunked
path. -/
theorem sizeFilter_survives_iff (minSize maxSize : Nat) (s out : Slice)
    (h : sizeFilterSlice minSize maxSize s = some out) :
    out = s.map (fun x =>
      if x ≠ 0 ∧ minSize ≤ s.count x ∧ s.count x ≤ maxSize then x else 0) := by
  unfold sizeFilterSlice at h
  rcases hfl : filteredLabels minSize maxSize s with _ | ⟨l, ls⟩
  · rw [hfl] at h; exact absurd h (by simp)
  · rw [hfl] at h
    simp only [Option.some.injEq] at h
    subst h
    apply List.map_congr_left
    intro x hx
    have hmem : x ∈ l :: ls ↔
        (x ≠ 0 ∧ minSize ≤ s.count x ∧ s.count x ≤ maxSize) := by
      rw [← hfl]
      unfold filteredLabels labelsOf
      simp only [List.mem_filter, List.mem_dedup, decide_eq_true_eq]
      constructor
      · rintro ⟨⟨-, hne⟩, hrange⟩; exact ⟨hne, hrange⟩
      · rintro ⟨hne, hrange⟩; exact ⟨⟨hx, hne⟩, hrange⟩
    by_cases hc : x ∈ l :: ls
    · rw [if_pos hc, if_pos (hmem.mp hc)]
    · rw [if_neg hc, if_neg (fun hcon => hc (hmem.mpr hcon))]

/-- Witness for C1: filtering `[1, 1, 2, 0]` with bounds `[2, 5]` keeps label 1
(2 voxels), removes label 2 (1 voxel) and leaves background alone. -/
theorem sizeFilter_survives_iff_witness :
    [1, 1, 0, 0] = ([1, 1, 2, 0] : Slice).map (fun x =>
      if x ≠ 0 ∧ 2 ≤ ([1, 1, 2, 0] : Slice).count x ∧
          ([1, 1, 2, 0] : Slice).count x ≤ 5 then x else 0) :=
  sizeFilter_survives_iff 2 5 [1, 1, 2, 0] [1, 1, 0, 0] (by decide)

/-- **C9** (implicit): on a slice in which no object's voxel count lies within
`[min_size, max_size]` — in particular on an all-background slice, where
`regionprops` finds no objects — `filtered_labels` is empty, so
`functools.reduce` over an empty sequence raises instead of producing an
all-background result, and the widget adds no output layer for that
invocation. -/
theorem sizeFilter_empty_raises (minSize maxSize : Nat)
    (layers : List (String × Slice)) (selName : String) (s : Slice)
    (h : ∀ l ∈ labelsOf s, ¬(minSize ≤ s.count l ∧ s.count l ≤ maxSize)) :
    sizeFilterSlice minSize maxSize s = none ∧
    deleteObjects3D minSize maxSize layers selName s = none := by
  have hfl : filteredLabels minSize maxSize s = [] := by
    unfold filteredLabels
    rw [List.filter_eq_nil_iff]
    intro l hl
    simpa using h l hl
  constructor
  · unfold sizeFilterSlice
    rw [hfl]
  · unfold deleteObjects3D sizeFilterSlice
    rw [hfl]
    rfl

/-- Witness for C9: the all-background slice `[0, 0]` (no objects at all) makes
the size filter raise, and no layer is added. -/
theorem sizeFilter_empty_raises_witness :
    sizeFilterSlice 0 1000000 [0, 0] = none ∧
    deleteObjects3D 0 1000000 [] "lbl" [0, 0] = none :=
  sizeFilter_empty_raises 0 1000000 [] "lbl" [0, 0] (by decide)

/-- **C3** Smoothing: a voxel whose input label is nonzero keeps exactly that
label through the combine step (`result[mask] = smoothed[mask]` with
`mask = (smoothed != 0) & (original == 0)`), through the per-timepoint body of
the chunked and 4D paths, and through all `n` iterations of the 3D path;
only background voxels may receive a new value.  `mf` is the external median
filter, assumed shape-preserving. -/
theorem smoothing_preserves_nonzero (mf : Slice → Slice)
    (hmf : ∀ l, (mf l).length = l.length) (n : Nat) (s : Slice)
    (i x : Nat) (hget : s[i]? = some x) (hx : x ≠ 0) :
    (smoothSlice mf s)[i]? = some x ∧ (smoothIter mf n s)[i]? = some x := by
  have hcomb : ∀ t : Slice, t[i]? = some x → (smoothCombine t (mf t))[i]? = some x := by
    intro t ht
    have hlen : (smoothCombine t (mf t)).length = t.length := by
      unfold smoothCombine
      rw [List.length_zipWith, hmf, Nat.min_self]
    have hi : i < t.length := by
      by_contra hcon
      rw [List.getElem?_eq_none (by omega)] at ht
      exact absurd ht (by simp)
    have hmi : i < (mf t).length := by rw [hmf]; exact hi
    have ht' : t[i] = x := by
      have := List.getElem?_eq_getElem hi
      rw [this] at ht
      exact Option.some.inj ht
    unfold smoothCombine
    rw [List.getElem?_eq_getElem (by rw [List.length_zipWith, hmf, Nat.min_self]; exact hi)]
    rw [List.getElem_zipWith]
    rw [ht']
    simp [hx]
  refine ⟨hcomb s hget, ?_⟩
  induction n generalizing s with
  | zero => exact hget
  | succ n ih =>
    unfold smoothIter
    exact ih (smoothCombine s (mf s)) (hcomb s hget)

/-- Witness for C3: with a median filter that would overwrite everything with
7s, voxel 0 of `[3, 0]` keeps label 3 after one combine and after 2 iterations
(while the background voxel may be overwritten). -/
theorem smoothing_preserves_nonzero_witness :
    (smoothSlice (fun l => l.map (fun _ => 7)) [3, 0])[0]? = some 3 ∧
    (smoothIter (fun l => l.map (fun _ => 7)) 2 [3, 0])[0]? = some 3 :=
  smoothing_preserves_nonzero (fun l => l.map (fun _ => 7))
    (fun l => by simp) 2 [3, 0] 0 3 (by decide) (by decide)

/-- **C4** Image calculator Divide: at every voxel where the divisor is 0 the
output is exactly the untouched `out` initialisation 0 — never the result of a
division (so never NaN/inf) — and at voxels with nonzero divisor the output is
the quotient. -/
theorem npDivide_zero_guard (a b : List ℚ) (i : Nat) (x y : ℚ)
    (ha : a[i]? = some x) (hb : b[i]? = some y) :
    (npDivide a b)[i]? = some (if y = 0 then 0 else x / y) := by
  have hia : i < a.length := by
    by_contra hcon
    rw [List.getElem?_eq_none (by omega)] at ha
    exact absurd ha (by simp)
  have hib : i < b.length := by
    by_contra hcon
    rw [List.getElem?_eq_none (by omega)] at hb
    exact absurd hb (by simp)
  have ha' : a[i] = x := by
    have := List.getElem?_eq_getElem hia
    rw [this] at ha
    exact Option.some.inj ha
  have hb' : b[i] = y := by
    have := List.getElem?_eq_getElem hib
    rw [this] at hb
    exact Option.some.inj hb
  unfold npDivide
  rw [List.getElem?_eq_getElem (by rw [List.length_zipWith]; omega)]
  rw [List.getElem_zipWith, ha', hb']
  by_cases hy : y = 0
  · simp [hy]
  · simp [hy]

/-- Witness for C4: dividing `[3, 5]` by `[0, 2]` yields 0 at the
zero-divisor voxel and the quotient 5/2 at the other. -/
theorem npDivide_zero_guard_witness :
    (npDivide [3, 5] [0, 2])[0]? = some (if (0 : ℚ) = 0 then 0 else 3 / 0) ∧
    (npDivide [3, 5] [0, 2])[1]? = some (if (2 : ℚ) = 0 then 0 else 5 / 2) :=
  ⟨npDivide_zero_guard [3, 5] [0, 2] 0 3 0 rfl rfl,
   npDivide_zero_guard [3, 5] [0, 2] 1 5 2 rfl rfl⟩

/-- **C10** (implicit): converting the selected chunked volume to an in-memory
array preserves its logical content exactly — the stacked result has one slice
per chunk, and slice `i` is precisely the materialisation of chunk `i`; data
that is already in memory is left unchanged. -/
theorem convertToArray_preserves (cs : List (Unit → Slice)) (xs : List Slice) :
    (∃ out, convertToArray (.chunked cs) = .inMemory out ∧
      out.length = cs.length ∧
      ∀ i (hi : i < cs.length),
        out[i]? = some ((cs.get ⟨i, hi⟩) ())) ∧
    convertToArray (.inMemory xs) = .inMemory xs := by
  have h1 : convertToArray (.chunked cs) =
      .inMemory (npStack (cs.map (fun c => c ()))) := rfl
  refine ⟨⟨npStack (cs.map (fun c => c ())), h1, by simp [npStack], ?_⟩, rfl⟩
  intro i hi
  rw [List.getElem?_eq_getElem (by simpa [npStack] using hi)]
  simp [npStack]

/-- Witness for C10: a two-chunk volume materialises to exactly its two
computed slices, and in-memory data is untouched. -/
theorem convertToArray_preserves_witness :
    ∃ out, convertToArray (.chunked [fun _ => [1, 2], fun _ => [3, 4]]) = .inMemory out ∧
      out.length = 2 ∧
      ∀ i (hi : i < ([fun _ => [1, 2], fun _ => [3, 4]] : List (Unit → Slice)).length),
        out[i]? = some ((([fun _ => [1, 2], fun _ => [3, 4]] :
          List (Unit → Slice)).get ⟨i, hi⟩) ()) :=
  (convertToArray_preserves [fun _ => [1, 2], fun _ => [3, 4]] []).1

/-! ## Decimal rendering and zero-padding (`str(i)`, `str(i).zfill(4)`)

The chunked loops name the written files with `str(i).zfill(4)`.  We model
Python's decimal rendering with explicit structural fuel so that the
definitions reduce inside `decide`/`rfl`. -/

/-- Little-endian decimal digits of `n` with structural fuel. -/
def digitsRevFuel : Nat → Nat → List Nat
  | 0, _ => []
  | fuel + 1, n => if n < 10 then [n] else n % 10 :: digitsRevFuel fuel (n / 10)

/-- Little-endian decimal digits of `n` (`0 ↦ [0]`, as Python renders `"0"`). -/
def pyDigitsRev (n : Nat) : List Nat := digitsRevFuel (n + 1) n

/-- Numeric value of a little-endian digit list. -/
def ofDigitsLE : List Nat → Nat
  | [] => 0
  | d :: ds => d + 10 * ofDigitsLE ds

/-- Numeric value of a big-endian digit list. -/
def valBE (l : List Nat) : Nat := l.foldl (fun a d => 10 * a + d) 0

theorem digitsRevFuel_congr : ∀ (n f₁ f₂ : Nat), n < f₁ → n < f₂ →
    digitsRevFuel f₁ n = digitsRevFuel f₂ n := by
  intro n
  induction n using Nat.strong_induction_on with
  | _ n ih =>
    intro f₁ f₂ h₁ h₂
    match f₁, f₂ with
    | m₁ + 1, m₂ + 1 =>
      unfold digitsRevFuel
      by_cases hn : n < 10
      · simp [hn]
      · have hd : n / 10 < n := Nat.div_lt_self (by omega) (by omega)
        simp only [hn, if_false]
        rw [ih (n / 10) hd m₁ m₂ (by omega) (by omega)]

theorem pyDigitsRev_def (n : Nat) :
    pyDigitsRev n = if n < 10 then [n] else n % 10 :: pyDigitsRev (n / 10) := by
  unfold pyDigitsRev
  conv_lhs => rw [digitsRevFuel]
  by_cases hn : n < 10
  · simp [hn]
  · have hd : n / 10 < n := Nat.div_lt_self (by omega) (by omega)
    simp only [hn, if_false]
    rw [digitsRevFuel_congr (n / 10) n (n / 10 + 1) (by omega) (by omega)]

theorem pyDigitsRev_ne_nil (n : Nat) : pyDigitsRev n ≠ [] := by
  rw [pyDigitsRev_def]
  by_cases hn : n < 10 <;> simp [hn]

theorem ofDigitsLE_pyDigitsRev (n : Nat) : ofDigitsLE (pyDigitsRev n) = n := by
  induction n using Nat.strong_induction_on with
  | _ n ih =>
    rw [pyDigitsRev_def]
    by_cases hn : n < 10
    · simp [hn, ofDigitsLE]
    · have hd : n / 10 < n := Nat.div_lt_self (by omega) (by omega)
      simp only [hn, if_false, ofDigitsLE]
      rw [ih (n / 10) hd]
      omega

theorem pyDigitsRev_digit_lt (n : Nat) : ∀ d ∈ pyDigitsRev n, d < 10 := by
  induction n using Nat.strong_induction_on with
  | _ n ih =>
    rw [pyDigitsRev_def]
    by_cases hn : n < 10
    · simp [hn]
    · have hd : n / 10 < n := Nat.div_lt_self (by omega) (by omega)
      simp only [hn, if_false, List.mem_cons]
      rintro d (rfl | hmem)
      · omega
      · exact ih (n / 10) hd d hmem

theorem pyDigitsRev_length_le (n k : Nat) (hn : n < 10 ^ k) (hk : 1 ≤ k) :
    (pyDigitsRev n).length ≤ k := by
  induction n using Nat.strong_induction_on generalizing k with
  | _ n ih =>
    rw [pyDigitsRev_def]
    by_cases h10 : n < 10
    · simpa [h10] using hk
    · have hd : n / 10 < n := Nat.div_lt_self (by omega) (by omega)
      have hk2 : 2 ≤ k := by
        by_contra hcon
        interval_cases k
        omega
      simp only [h10, if_false, List.length_cons]
      have : (pyDigitsRev (n / 10)).length ≤ k - 1 := by
        refine ih (n / 10) hd (k - 1) ?_ (by omega)
        have : n < 10 * 10 ^ (k - 1) := by
          have : 10 * 10 ^ (k - 1) = 10 ^ k := by
            rw [← pow_succ']
            congr 1
            omega
          omega
        exact Nat.div_lt_of_lt_mul (by omega)
      omega

theorem valBE_foldl (a : Nat) (l : List Nat) :
    l.foldl (fun a d => 10 * a + d) a = a * 10 ^ l.length + valBE l := by
  induction l generalizing a with
  | nil => simp [valBE]
  | cons d ds ih =>
    have hv : valBE (d :: ds) = d * 10 ^ ds.length + valBE ds := by
      show List.foldl (fun a d => 10 * a + d) 0 (d :: ds) =
        d * 10 ^ ds.length + valBE ds
      rw [List.foldl_cons, ih (10 * 0 + d)]
      norm_num
    simp only [List.foldl_cons, List.length_cons]
    rw [ih (10 * a + d), hv]
    ring

theorem valBE_cons (d : Nat) (ds : List Nat) :
    valBE (d :: ds) = d * 10 ^ ds.length + valBE ds := by
  show List.foldl (fun a d => 10 * a + d) 0 (d :: ds) =
    d * 10 ^ ds.length + valBE ds
  rw [List.foldl_cons, valBE_foldl]
  norm_num

theorem valBE_append (l₁ l₂ : List Nat) :
    valBE (l₁ ++ l₂) = valBE l₁ * 10 ^ l₂.length + valBE l₂ := by
  show List.foldl (fun a d => 10 * a + d) 0 (l₁ ++ l₂) =
    valBE l₁ * 10 ^ l₂.length + valBE l₂
  rw [List.foldl_append, valBE_foldl]
  rfl

theorem valBE_replicate_zero (k : Nat) : valBE (List.replicate k 0) = 0 := by
  induction k with
  | zero => rfl
  | succ k ih =>
    rw [List.replicate_succ, valBE_cons, ih]
    omega

theorem valBE_reverse (l : List Nat) : valBE l.reverse = ofDigitsLE l := by
  induction l with
  | nil => rfl
  | cons d ds ih =>
    rw [List.reverse_cons, valBE_append, ih]
    simp [valBE_cons, valBE, ofDigitsLE]
    ring

theorem valBE_lt (l : List Nat) (h : ∀ d ∈ l, d < 10) :
    valBE l < 10 ^ l.length := by
  induction l with
  | nil => simp [valBE]
  | cons d ds ih =>
    rw [valBE_cons]
    have hd : d < 10 := h d (by simp)
    have hds : valBE ds < 10 ^ ds.length := ih (fun x hx => h x (by simp [hx]))
    have : (d + 1) * 10 ^ ds.length ≤ 10 * 10 ^ ds.length :=
      Nat.mul_le_mul_right _ (by omega)
    simp only [List.length_cons]
    rw [pow_succ']
    nlinarith

/-- Big-endian decimal digits of `n`. -/
def digitsBE (n : Nat) : List Nat := (pyDigitsRev n).reverse

theorem valBE_digitsBE (n : Nat) : valBE (digitsBE n) = n := by
  rw [digitsBE, valBE_reverse, ofDigitsLE_pyDigitsRev]

theorem digitsBE_digit_lt (n : Nat) : ∀ d ∈ digitsBE n, d < 10 := by
  intro d hd
  exact pyDigitsRev_digit_lt n d (by simpa [digitsBE] using hd)

/-- Digit-level `zfill`: pad the big-endian digits of `n` with leading zeros
to width `w`. -/
def padDigits (w n : Nat) : List Nat :=
  List.replicate (w - (digitsBE n).length) 0 ++ digitsBE n

theorem padDigits_length (w n : Nat) (h : n < 10 ^ w) (hw : 1 ≤ w) :
    (padDigits w n).length = w := by
  have hlen : (digitsBE n).length ≤ w := by
    rw [digitsBE, List.length_reverse]
    exact pyDigitsRev_length_le n w h hw
  simp only [padDigits, List.length_append, List.length_replicate]
  omega

theorem padDigits_val (w n : Nat) : valBE (padDigits w n) = n := by
  rw [padDigits, valBE_append, valBE_replicate_zero, valBE_digitsBE]
  omega

theorem padDigits_digit_lt (w n : Nat) : ∀ d ∈ padDigits w n, d < 10 := by
  intro d hd
  rcases List.mem_append.mp hd with hmem | hmem
  · have := List.eq_of_mem_replicate hmem
    omega
  · exact digitsBE_digit_lt n d hmem

theorem lex_of_valBE_lt : ∀ (a b : List Nat), a.length = b.length →
    (∀ d ∈ a, d < 10) → (∀ d ∈ b, d < 10) → valBE a < valBE b →
    List.Lex (· < ·) a b := by
  intro a
  induction a with
  | nil =>
    intro b hlen _ _ hval
    have : b = [] := by
      cases b with
      | nil => rfl
      | cons x xs => simp at hlen
    subst this
    simp [valBE] at hval
  | cons d₁ as ih =>
    intro b hlen ha hb hval
    cases b with
    | nil => simp at hlen
    | cons d₂ bs =>
      have hm : as.length = bs.length := by simpa using hlen
      rw [valBE_cons, valBE_cons, hm] at hval
      rcases lt_trichotomy d₁ d₂ with hlt | heq | hgt
      · exact List.Lex.rel hlt
      · subst heq
        refine List.Lex.cons (ih bs hm (fun x hx => ha x (by simp [hx]))
          (fun x hx => hb x (by simp [hx])) (by omega))
      · exfalso
        have hbs : valBE bs < 10 ^ bs.length :=
          valBE_lt bs (fun x hx => hb x (by simp [hx]))
        have h1 : (d₂ + 1) * 10 ^ bs.length ≤ d₁ * 10 ^ bs.length :=
          Nat.mul_le_mul_right _ (by omega)
        nlinarith

theorem padDigits_lex (w i j : Nat) (hij : i < j) (hj : j < 10 ^ w) :
    List.Lex (· < ·) (padDigits w i) (padDigits w j) := by
  have hw : 1 ≤ w := by
    by_contra hcon
    have : w = 0 := by omega
    subst this
    simp at hj
    omega
  refine lex_of_valBE_lt _ _ ?_ (padDigits_digit_lt w i) (padDigits_digit_lt w j) ?_
  · rw [padDigits_length w i (by omega) hw, padDigits_length w j hj hw]
  · rw [padDigits_val, padDigits_val]
    exact hij

/-- The decimal digit characters (`'0'`–`'9'`). -/
def digitChar : Nat → Char
  | 0 => '0'
  | 1 => '1'
  | 2 => '2'
  | 3 => '3'
  | 4 => '4'
  | 5 => '5'
  | 6 => '6'
  | 7 => '7'
  | 8 => '8'
  | _ => '9'

theorem digitChar_mono : ∀ d₁ < 10, ∀ d₂ < 10, d₁ < d₂ →
    digitChar d₁ < digitChar d₂ := by decide

/-- Python `str(i)` for a natural number: big-endian decimal digits. -/
def pyStr (n : Nat) : String := String.mk ((pyDigitsRev n).reverse.map digitChar)

/-- Python `s.zfill(w)`: left-pad with `'0'` to width `w`. -/
def zfill (w : Nat) (s : String) : String :=
  String.mk (List.replicate (w - s.length) '0') ++ s

theorem zfill_pyStr_data (w n : Nat) :
    (zfill w (pyStr n)).data = (padDigits w n).map digitChar := by
  show List.replicate (w - (pyStr n).length) '0' ++
    ((pyDigitsRev n).reverse.map digitChar) = _
  have hlen : (pyStr n).length = (digitsBE n).length := by
    show ((pyDigitsRev n).reverse.map digitChar).length = _
    simp [digitsBE]
  rw [hlen]
  have : List.replicate (w - (digitsBE n).length) '0' =
      (List.replicate (w - (digitsBE n).length) 0).map digitChar := by
    rw [List.map_replicate]
    rfl
  rw [this, padDigits, List.map_append]
  rfl

theorem lex_append_left {r : Char → Char → Prop} (p : List Char)
    {a b : List Char} (h : List.Lex r a b) :
    List.Lex r (p ++ a) (p ++ b) := by
  induction p with
  | nil => exact h
  | cons c cs ih => exact List.Lex.cons ih

theorem lex_append_of_length {r : Char → Char → Prop} :
    ∀ (a b x y : List Char), a.length = b.length → List.Lex r a b →
      List.Lex r (a ++ x) (b ++ y) := by
  intro a
  induction a with
  | nil =>
    intro b x y hlen h
    cases b with
    | nil => cases h
    | cons d ds => simp at hlen
  | cons c cs ih =>
    intro b x y hlen h
    cases b with
    | nil => cases h
    | cons d ds =>
      cases h with
      | cons h' => exact List.Lex.cons (ih ds x y (by simpa using hlen) h')
      | rel hr => exact List.Lex.rel hr

theorem lex_map_digitChar : ∀ (a b : List Nat), (∀ d ∈ a, d < 10) →
    (∀ d ∈ b, d < 10) → List.Lex (· < ·) a b →
    List.Lex (· < ·) (a.map digitChar) (b.map digitChar) := by
  intro a
  induction a with
  | nil =>
    intro b _ _ h
    cases h with
    | nil => exact List.Lex.nil
  | cons x xs ih =>
    intro b ha hb h
    cases b with
    | nil => cases h
    | cons y ys =>
      cases h with
      | cons h' =>
        exact List.Lex.cons (ih ys (fun d hd => ha d (by simp [hd]))
          (fun d hd => hb d (by simp [hd])) h')
      | rel hr =>
        exact List.Lex.rel (digitChar_mono x (ha x (by simp)) y (hb y (by simp)) hr)

/-- The file path written for timepoint `i` by a chunked loop:
`os.path.join(outputdir, name + suffix + str(i).zfill(4) + ".tif")`, with
everything up to the padded index collected in `pfx`. -/
def tifName (pfx : String) (i : Nat) : String := pfx ++ zfill 4 (pyStr i) ++ ".tif"

/-- For indices below 10000 the zero-padded file names are strictly
increasing in the string order used by Python's `sorted`. -/
theorem tifName_lt (pfx : String) (i j : Nat) (hij : i < j) (hj : j < 10000) :
    tifName pfx i < tifName pfx j := by
  rw [String.lt_iff_toList_lt]
  show List.Lex (· < ·) (tifName pfx i).data (tifName pfx j).data
  have hdata : ∀ k, (tifName pfx k).data =
      pfx.data ++ ((padDigits 4 k).map digitChar ++ ".tif".data) := by
    intro k
    show (pfx ++ zfill 4 (pyStr k) ++ ".tif").data = _
    rw [String.data_append, String.data_append, zfill_pyStr_data, List.append_assoc]
  rw [hdata i, hdata j]
  apply lex_append_left
  apply lex_append_of_length
  · have h4 : (10000 : Nat) = 10 ^ 4 := by norm_num
    rw [List.length_map, List.length_map,
      padDigits_length 4 i (by omega) (by omega),
      padDigits_length 4 j (by rw [← h4]; omega) (by omega)]
  · exact lex_map_digitChar _ _ (padDigits_digit_lt 4 i) (padDigits_digit_lt 4 j)
      (padDigits_lex 4 i j hij (by norm_num; omega))

/-! ## The chunked per-timepoint write/reload loop

Shared by the chunked branches of `_delete_objects`, `_smooth_objects`,
`_conn_comp`, `_keep_largest_cluster` and `_keep_largest_fragment`: the loop
computes each timepoint, applies the pure per-slice transform `f`, writes the
result (cast to uint16) into the freshly created output directory under a
zero-padded indexed name, then reloads the directory's `.tif` files in
`sorted` order and stacks them. -/

/-- `tifffile.imwrite(path, data)`: store `data` under `path`, overwriting any
existing entry with that path. -/
def writeFile (fs : List (String × Slice)) (nm : String) (content : Slice) :
    List (String × Slice) :=
  if fs.any (fun e => e.1 == nm) then
    fs.map (fun e => if e.1 == nm then (nm, content) else e)
  else fs ++ [(nm, content)]

/-- The write loop `for i in range(T): imwrite(name(i), cast16 (f chunk_i))`
into a freshly created (hence initially empty) output directory. -/
def writeSlices (name : Nat → String) (f : Slice → Slice) (chunks : List Slice) :
    List (String × Slice) :=
  chunks.enum.foldl (fun fs p => writeFile fs (name p.1) (cast16 (f p.2))) []

/-- Python `s.endswith(suffix)`: the last `len(suffix)` characters equal
`suffix`. -/
def pyEndsWith (s suffix : String) : Bool :=
  s.data.drop (s.data.length - suffix.data.length) == suffix.data

/-- `[os.path.join(outputdir, fname) for fname in os.listdir(outputdir)
if fname.endswith(".tif")]`: the stored paths ending in `".tif"` (paths are
stored fully joined, so the join is a no-op here). -/
def listTifs (fs : List (String × Slice)) : List String :=
  (fs.map Prod.fst).filter (fun nm => pyEndsWith nm ".tif")

/-- `skimage.io.imread(fname)`: the image stored under the given path. -/
def imread (fs : List (String × Slice)) (nm : String) : Slice :=
  (fs.lookup nm).getD []

/-- `da.stack([imread(fname) for fname in sorted(file_list)])`: re-read the
directory's `.tif` files in sorted filename order and stack them into the
new chunked volume. -/
def reloadSorted (fs : List (String × Slice)) : List Slice :=
  (List.insertionSort (· ≤ ·) (listTifs fs)).map (imread fs)

/-- The full chunked loop: write every transformed timepoint, then reload. -/
def chunkedApply (name : Nat → String) (f : Slice → Slice)
    (chunks : List Slice) : List Slice :=
  reloadSorted (writeSlices name f chunks)

theorem pyEndsWith_append (p : List Char) (suffix : String) :
    pyEndsWith (String.mk (p ++ suffix.data)) suffix = true := by
  unfold pyEndsWith
  show (((p ++ suffix.data).drop ((p ++ suffix.data).length - suffix.data.length))
    == suffix.data) = true
  rw [List.length_append, Nat.add_sub_cancel, List.drop_left]
  exact beq_self_eq_true _

theorem writeSlices_fresh (name : Nat → String) (f : Slice → Slice) :
    ∀ (l : List (Nat × Slice)) (fs : List (String × Slice)),
      (∀ p ∈ l, ∀ e ∈ fs, e.1 ≠ name p.1) →
      l.Pairwise (fun p q => name p.1 ≠ name q.1) →
      l.foldl (fun fs p => writeFile fs (name p.1) (cast16 (f p.2))) fs =
        fs ++ l.map (fun p => (name p.1, cast16 (f p.2))) := by
  intro l
  induction l with
  | nil => intro fs _ _; simp
  | cons p₀ rest ih =>
    intro fs hfresh hpw
    have hstep : writeFile fs (name p₀.1) (cast16 (f p₀.2)) =
        fs ++ [(name p₀.1, cast16 (f p₀.2))] := by
      unfold writeFile
      have : fs.any (fun e => e.1 == name p₀.1) = false := by
        rw [List.any_eq_false]
        intro e he
        simpa using hfresh p₀ (by simp) e he
      rw [this]
      simp
    rw [List.foldl_cons, hstep, ih (fs ++ [(name p₀.1, cast16 (f p₀.2))]) ?_ hpw.tail]
    · simp
    · intro p hp e he
      rcases List.mem_append.mp he with hmem | hmem
      · exact hfresh p (by simp [hp]) e hmem
      · have : e = (name p₀.1, cast16 (f p₀.2)) := by simpa using hmem
        subst this
        exact (List.pairwise_cons.mp hpw).1 p hp

theorem pyEndsWith_of_data (s t : String) (p : List Char)
    (h : s.data = p ++ t.data) : pyEndsWith s t = true := by
  unfold pyEndsWith
  rw [h, List.length_append, Nat.add_sub_cancel, List.drop_left]
  exact beq_self_eq_true _

theorem tifName_endsWith (pfx : String) (i : Nat) :
    pyEndsWith (tifName pfx i) ".tif" = true := by
  refine pyEndsWith_of_data _ _ (pfx.data ++ (zfill 4 (pyStr i)).data) ?_
  show (pfx ++ zfill 4 (pyStr i) ++ ".tif").data = _
  simp [List.append_assoc]

theorem tifName_range_pairwise (pfx : String) (T : Nat) (hT : T ≤ 10000)
    (r : String → String → Prop) (hr : ∀ s t : String, s < t → r s t) :
    ((List.range T).map (tifName pfx)).Pairwise r := by
  rw [List.pairwise_map]
  refine (List.pairwise_lt_range T).imp_of_mem ?_
  intro i j hi hj hij
  exact hr _ _ (tifName_lt pfx i j hij (by
    have := List.mem_range.mp hj
    omega))

theorem zfill_pyStr_length (n : Nat) (h : n < 10000) :
    (zfill 4 (pyStr n)).length = 4 := by
  have := zfill_pyStr_data 4 n
  have hlen : (zfill 4 (pyStr n)).length = (padDigits 4 n).length := by
    show (zfill 4 (pyStr n)).data.length = _
    rw [this, List.length_map]
  rw [hlen]
  exact padDigits_length 4 n (by norm_num; omega) (by omega)

theorem tifName_length (pfx : String) (n : Nat) :
    (tifName pfx n).length = pfx.length + (zfill 4 (pyStr n)).length + 4 := by
  show (pfx ++ zfill 4 (pyStr n) ++ ".tif").length = _
  simp only [String.length_append]
  norm_num
  decide

/-- File names are pairwise distinct for all indices up to 10000: below 10000
by the strict order on the padded digits, and index 10000 differs from all
smaller ones because its rendering is 5 characters wide. -/
theorem tifName_inj (pfx : String) (i j : Nat) (hi : i ≤ 10000)
    (hj : j ≤ 10000) (hne : i ≠ j) : tifName pfx i ≠ tifName pfx j := by
  have hlen10000 : (zfill 4 (pyStr 10000)).length = 5 := by decide
  by_cases hi4 : i < 10000
  · by_cases hj4 : j < 10000
    · rcases Nat.lt_or_ge i j with hlt | hge
      · exact ne_of_lt (tifName_lt pfx i j hlt hj4)
      · exact (ne_of_lt (tifName_lt pfx j i (by omega) hi4)).symm
    · have hj10000 : j = 10000 := by omega
      subst hj10000
      intro hcon
      have := congrArg String.length hcon
      rw [tifName_length, tifName_length, zfill_pyStr_length i hi4, hlen10000] at this
      omega
  · have hi10000 : i = 10000 := by omega
    subst hi10000
    have hj4 : j < 10000 := by omega
    intro hcon
    have := congrArg String.length hcon
    rw [tifName_length, tifName_length, zfill_pyStr_length j hj4, hlen10000] at this
    omega

theorem tifName_range_nodup (pfx : String) (T : Nat) (hT : T ≤ 10001) :
    ((List.range T).map (tifName pfx)).Nodup := by
  show ((List.range T).map (tifName pfx)).Pairwise (· ≠ ·)
  rw [List.pairwise_map]
  refine (List.pairwise_lt_range T).imp_of_mem ?_
  intro i j hi hj hij
  have hjT := List.mem_range.mp hj
  exact tifName_inj pfx i j (by omega) (by omega) (by omega)

theorem lookup_of_mem_nodup : ∀ (l : List (String × Slice)) (nm : String)
    (v : Slice), (nm, v) ∈ l → (l.map Prod.fst).Nodup → l.lookup nm = some v := by
  intro l
  induction l with
  | nil => intro nm v hmem _; simp at hmem
  | cons e rest ih =>
    intro nm v hmem hnodup
    rcases List.mem_cons.mp hmem with heq | hmem'
    · subst heq
      simp [List.lookup]
    · rw [List.map_cons] at hnodup
      have hcons := List.nodup_cons.mp hnodup
      have hne : nm ≠ e.1 := by
        intro hcon
        have h1 : e.1 ∈ rest.map Prod.fst := by
          rw [← hcon]
          exact List.mem_map.mpr ⟨(nm, v), hmem', rfl⟩
        exact hcons.1 h1
      have hbeq : (nm == e.1) = false := by
        rw [beq_eq_false_iff_ne]
        exact hne
      cases e with
      | mk k b =>
        simp only [List.lookup]
        simp only at hbeq
        rw [hbeq]
        exact ih nm v hmem' hcons.2

theorem writeSlices_eq (pfx : String) (f : Slice → Slice) (chunks : List Slice)
    (hT : chunks.length ≤ 10001) :
    writeSlices (tifName pfx) f chunks =
      chunks.enum.map (fun p => (tifName pfx p.1, cast16 (f p.2))) := by
  unfold writeSlices
  rw [writeSlices_fresh (tifName pfx) f chunks.enum [] (by simp) ?_]
  · simp
  · have hpair : ((List.range chunks.length).map (tifName pfx)).Pairwise (· ≠ ·) :=
      tifName_range_nodup pfx chunks.length hT
    rw [← List.enum_map_fst chunks, List.map_map] at hpair
    exact List.pairwise_map.mp hpair

theorem writeSlices_map_fst (pfx : String) (f : Slice → Slice)
    (chunks : List Slice) (hT : chunks.length ≤ 10001) :
    (writeSlices (tifName pfx) f chunks).map Prod.fst =
      (List.range chunks.length).map (tifName pfx) := by
  rw [writeSlices_eq pfx f chunks hT, List.map_map, ← List.enum_map_fst chunks,
    List.map_map]
  rfl

/-- **C2 (amended)** Chunked round-trip, for volumes with at most 10000
timepoints (so that the 4-digit zero padding makes `sorted` filename order
agree with timepoint order): the loop writes exactly `T` slice files, and
re-reading the written directory in sorted filename order yields a stacked
volume with exactly `T` slices whose slice `i` equals the eagerly computed
transform of original timepoint `i`, up to the uint16 cast. -/
theorem chunked_roundTrip (pfx : String) (f : Slice → Slice)
    (chunks : List Slice) (hT : chunks.length ≤ 10000) :
    (writeSlices (tifName pfx) f chunks).length = chunks.length ∧
    (chunkedApply (tifName pfx) f chunks).length = chunks.length ∧
    ∀ i (hi : i < chunks.length),
      (chunkedApply (tifName pfx) f chunks)[i]? =
        some (cast16 (f chunks[i])) := by
  have hfiles := writeSlices_eq pfx f chunks (by omega)
  have hlen : (writeSlices (tifName pfx) f chunks).length = chunks.length := by
    rw [hfiles]
    simp
  have hnames : listTifs (writeSlices (tifName pfx) f chunks) =
      (List.range chunks.length).map (tifName pfx) := by
    unfold listTifs
    rw [writeSlices_map_fst pfx f chunks (by omega)]
    rw [List.filter_eq_self]
    intro nm hnm
    rcases List.mem_map.mp hnm with ⟨i, _, rfl⟩
    exact tifName_endsWith pfx i
  have hsorted : List.insertionSort (· ≤ ·)
      ((List.range chunks.length).map (tifName pfx)) =
      (List.range chunks.length).map (tifName pfx) :=
    List.Sorted.insertionSort_eq
      (tifName_range_pairwise pfx chunks.length hT _ (fun s t h => le_of_lt h))
  have happ : chunkedApply (tifName pfx) f chunks =
      ((List.range chunks.length).map (tifName pfx)).map
        (imread (writeSlices (tifName pfx) f chunks)) := by
    unfold chunkedApply reloadSorted
    rw [hnames, hsorted]
  refine ⟨hlen, by rw [happ]; simp, ?_⟩
  intro i hi
  have hmem : (tifName pfx i, cast16 (f chunks[i])) ∈
      writeSlices (tifName pfx) f chunks := by
    rw [hfiles]
    refine List.mem_map.mpr ⟨(i, chunks[i]), ?_, rfl⟩
    have hienum : i < chunks.enum.length := by simpa using hi
    have := List.getElem_enum chunks i hienum
    rw [← this]
    exact List.getElem_mem hienum
  have hnodup : ((writeSlices (tifName pfx) f chunks).map Prod.fst).Nodup := by
    rw [writeSlices_map_fst pfx f chunks (by omega)]
    exact tifName_range_nodup pfx chunks.length (by omega)
  have hread : imread (writeSlices (tifName pfx) f chunks) (tifName pfx i) =
      cast16 (f chunks[i]) := by
    unfold imread
    rw [lookup_of_mem_nodup _ _ _ hmem hnodup]
    rfl
  rw [happ]
  simp only [List.getElem?_map, List.getElem?_range hi, Option.map_some']
  rw [hread]

/-- Witness for the amended C2: a 2-timepoint chunked volume round-trips
through the write/reload loop. -/
theorem chunked_roundTrip_witness :
    (writeSlices (tifName "/out/x_sizefiltered/x_sizefiltered_TP")
        (fun s => s) [[1], [2]]).length = ([[1], [2]] : List Slice).length ∧
    (chunkedApply (tifName "/out/x_sizefiltered/x_sizefiltered_TP")
        (fun s => s) [[1], [2]]).length = ([[1], [2]] : List Slice).length ∧
    ∀ i (hi : i < ([[1], [2]] : List Slice).length),
      (chunkedApply (tifName "/out/x_sizefiltered/x_sizefiltered_TP")
          (fun s => s) [[1], [2]])[i]? =
        some (cast16 (([[1], [2]] : List Slice)[i])) :=
  chunked_roundTrip "/out/x_sizefiltered/x_sizefiltered_TP" (fun s => s)
    [[1], [2]] (by norm_num)

/-! ### The 10000-timepoint boundary of the chunked round-trip

`str(i).zfill(4)` keeps lexicographic filename order equal to timepoint order
only while every index fits in 4 digits.  With 10001 timepoints the name for
timepoint 10000 sorts *before* the name for timepoint 9999, so the reloaded
stack permutes the timepoints and the round-trip claim fails.  The following
concrete instance exhibits this. -/

/-- Concrete 10001-timepoint chunked volume: timepoint `t` holds the
single-voxel slice `[t + 1]`. -/
def cexChunks : List Slice := (List.range 10001).map (fun t => [t + 1])

/-- Path prefix of the files written by the size filter's chunked branch for
a layer named `x` with output directory `/out`. -/
def cexPfx : String := "/out/x_sizefiltered/x_sizefiltered_TP"

/-- The per-timepoint transform applied by the size filter's chunked branch
(bounds `[1, 1000000]`), on slices where it succeeds. -/
def cexF (s : Slice) : Slice := (sizeFilterSlice 1 1000000 s).getD []

/-- The files written by the counterexample run. -/
def cexFiles : List (String × Slice) := writeSlices (tifName cexPfx) cexF cexChunks

/-- The written file names in timepoint order. -/
def cexNames : List String := (List.range 10001).map (tifName cexPfx)

theorem cexF_val (k : Nat) : cexF [k + 1] = [k + 1] := by
  simp [cexF, sizeFilterSlice, filteredLabels, labelsOf]

theorem cexCast (k : Nat) (hk : k ≤ 10000) : cast16 [k + 1] = [k + 1] := by
  simp [cast16, npUint16]
  omega

theorem cexChunks_getElem (k : Nat) (hk : k < 10001) :
    cexChunks[k]? = some [k + 1] := by
  unfold cexChunks
  rw [List.getElem?_map, List.getElem?_range hk]
  rfl

/-- **C2 (counterexample)** The round-trip claim is false as stated for every
`T`: with 10001 timepoints, the reloaded stack does not return every timepoint
to its original position. -/
theorem chunked_roundTrip_cex :
    ¬ ∀ i, i < 10001 →
      (chunkedApply (tifName cexPfx) cexF cexChunks)[i]? =
        some (cast16 (cexF (cexChunks.getD i []))) := by
  intro H
  have hlenc : cexChunks.length = 10001 := by simp [cexChunks]
  have hfiles : cexFiles =
      cexChunks.enum.map (fun p => (tifName cexPfx p.1, cast16 (cexF p.2))) :=
    writeSlices_eq cexPfx cexF cexChunks (by omega)
  have hmapfst : cexFiles.map Prod.fst = cexNames := by
    show (writeSlices (tifName cexPfx) cexF cexChunks).map Prod.fst = _
    rw [writeSlices_map_fst cexPfx cexF cexChunks (by omega), hlenc]
    rfl
  have hnames : listTifs cexFiles = cexNames := by
    unfold listTifs
    rw [hmapfst, List.filter_eq_self]
    intro nm hnm
    rcases List.mem_map.mp hnm with ⟨i, _, rfl⟩
    exact tifName_endsWith cexPfx i
  have hnodup : (cexFiles.map Prod.fst).Nodup := by
    rw [hmapfst]
    exact tifName_range_nodup cexPfx 10001 le_rfl
  have happly : chunkedApply (tifName cexPfx) cexF cexChunks =
      (List.insertionSort (· ≤ ·) cexNames).map (imread cexFiles) := by
    show reloadSorted (writeSlices (tifName cexPfx) cexF cexChunks) = _
    unfold reloadSorted
    rw [show listTifs (writeSlices (tifName cexPfx) cexF cexChunks) =
      cexNames from hnames]
    rfl
  have hnlen : cexNames.length = 10001 := by simp [cexNames]
  have hperm : List.Perm (List.insertionSort (· ≤ ·) cexNames) cexNames :=
    List.perm_insertionSort _ _
  have hslen : (List.insertionSort (· ≤ ·) cexNames).length = 10001 := by
    rw [hperm.length_eq, hnlen]
  have hread : ∀ k, k < 10001 →
      imread cexFiles (tifName cexPfx k) = [k + 1] := by
    intro k hk
    have hmem : (tifName cexPfx k, cast16 (cexF [k + 1])) ∈ cexFiles := by
      rw [hfiles]
      refine List.mem_map.mpr ⟨(k, [k + 1]), ?_, rfl⟩
      exact List.mk_mem_enum_iff_getElem?.mpr (cexChunks_getElem k hk)
    unfold imread
    rw [lookup_of_mem_nodup _ _ _ hmem hnodup]
    rw [cexF_val, cexCast k (by omega)]
    rfl
  have hstep : ∀ i, i < 10001 →
      (List.insertionSort (· ≤ ·) cexNames)[i]? = some (tifName cexPfx i) := by
    intro i hi
    rcases hx : (List.insertionSort (· ≤ ·) cexNames)[i]? with _ | nm
    · rw [List.getElem?_eq_none_iff] at hx
      omega
    · rcases List.getElem?_eq_some.mp hx with ⟨hbound, hgetelem⟩
      have hmemS : nm ∈ List.insertionSort (· ≤ ·) cexNames := by
        rw [← hgetelem]
        exact List.getElem_mem hbound
      have hsi : nm ∈ cexNames := hperm.mem_iff.mp hmemS
      rcases List.mem_map.mp hsi with ⟨k, hk, hkeq⟩
      have hk' : k < 10001 := List.mem_range.mp hk
      have hchunk : cexChunks.getD i [] = [i + 1] := by
        rw [List.getD_eq_getElem?_getD, cexChunks_getElem i hi]
        rfl
      have hH := H i hi
      rw [happly, List.getElem?_map, hx] at hH
      simp only [Option.map_some'] at hH
      rw [hchunk, cexF_val, cexCast i (by omega), ← hkeq, hread k hk'] at hH
      have hki : k = i := by
        simp only [Option.some.injEq, List.cons.injEq, and_true] at hH
        omega
      rw [← hkeq, hki]
  have hsorted_eq : List.insertionSort (· ≤ ·) cexNames = cexNames := by
    refine List.ext_getElem? fun i => ?_
    by_cases hi : i < 10001
    · rw [hstep i hi, cexNames]
      rw [List.getElem?_map, List.getElem?_range hi]
      rfl
    · rw [List.getElem?_eq_none (by omega), List.getElem?_eq_none (by omega)]
  have hsorted_pw : cexNames.Pairwise (· ≤ ·) := by
    have hs := List.sorted_insertionSort (· ≤ ·) cexNames
    rw [hsorted_eq] at hs
    exact hs
  have hle : tifName cexPfx 9999 ≤ tifName cexPfx 10000 := by
    have hpw := (List.pairwise_iff_getElem.mp hsorted_pw) 9999 10000
      (by rw [hnlen]; omega) (by rw [hnlen]; omega) (by omega)
    simpa [cexNames] using hpw
  have hgt : tifName cexPfx 10000 < tifName cexPfx 9999 := by
    rw [String.lt_iff_toList_lt]
    show List.Lex (· < ·) (tifName cexPfx 10000).data (tifName cexPfx 9999).data
    decide
  exact absurd hle (not_le.mpr hgt)

/-! ## Per-operation chunked write calls

Each chunked branch writes, for timepoint `i`, one file whose path and stored
value are built exactly as in the corresponding `tifffile.imwrite` call. -/

/-- `_delete_objects` (size filter): `name + "_sizefiltered_TP" + str(i).zfill(4)
+ ".tif"`, value cast to uint16. -/
def sizeFilterChunkFile (ln : String) (i : Nat) (filtered : Slice) : String × Slice :=
  (ln ++ "_sizefiltered_TP" ++ zfill 4 (pyStr i) ++ ".tif", cast16 filtered)

/-- `_smooth_objects`: `name + "_smoothed_slice" + str(i).zfill(4) + ".tif"`,
value cast to uint16. -/
def smoothChunkFile (ln : String) (i : Nat) (result : Slice) : String × Slice :=
  (ln ++ "_smoothed_slice" ++ zfill 4 (pyStr i) ++ ".tif", cast16 result)

/-- `_conn_comp`: `name + "_conn_comp_slice" + str(i).zfill(4) + ".tif"`,
value cast to uint16. -/
def connCompChunkFile (ln : String) (i : Nat) (relabeled : Slice) : String × Slice :=
  (ln ++ "_conn_comp_slice" ++ zfill 4 (pyStr i) ++ ".tif", cast16 relabeled)

/-- `_keep_largest_cluster`: `name + "_largest_cluster_slice" + str(i).zfill(4)
+ ".tif"`, value cast to uint16. -/
def largestClusterChunkFile (ln : String) (i : Nat) (cluster : Slice) : String × Slice :=
  (ln ++ "_largest_cluster_slice" ++ zfill 4 (pyStr i) ++ ".tif", cast16 cluster)

/-- `_keep_largest_fragment`: `name + "_largest_fragments_slice" +
str(i).zfill(4) + ".tif"`; the value is written *without* a uint16 cast. -/
def largestFragmentsChunkFile (ln : String) (i : Nat) (frags : Slice) : String × Slice :=
  (ln ++ "_largest_fragments_slice" ++ zfill 4 (pyStr i) ++ ".tif", frags)

/-- `_save_labels`: `name + "_TP" + str(i).zfill(4) + ".tif"`, value cast to
uint16. -/
def saveLabelsChunkFile (ln : String) (i : Nat) (stack : Slice) : String × Slice :=
  (ln ++ "_TP" ++ zfill 4 (pyStr i) ++ ".tif", cast16 stack)

/-- **C5 (counterexample)** Not every chunked operation follows the
`<name>_<suffix>_TP%04d.tif` naming scheme with a uint16 cast: the smoothing
branch names its file `<name>_smoothed_slice%04d.tif` (not `..._TP%04d.tif`),
and the keep-largest-fragment branch writes its slice without the uint16
cast. -/
theorem chunked_naming_cex :
    (smoothChunkFile "x" 0 []).1 ≠ "x" ++ "_smoothed" ++ "_TP" ++
      zfill 4 (pyStr 0) ++ ".tif" ∧
    (largestFragmentsChunkFile "x" 0 [70000]).2 ≠ cast16 [70000] := by
  refine ⟨?_, ?_⟩ <;> decide

/-- **C5 (amended)** Every chunked operation writes, for timepoint `i`, the
slice under `<name><tag>%04d.tif` with the index zero-padded to width 4 (for
`i < 10000`), where the tag is `_sizefiltered_TP` for the size filter and
`_TP` for save-labels, but `_smoothed_slice`, `_conn_comp_slice`,
`_largest_cluster_slice` and `_largest_fragments_slice` for the segmentation
operations; the written value is cast to uint16 in every operation except
keep-largest-fragment, which writes the slice uncast.  All written names end
in `.tif`, so all are picked up again by the reload filter. -/
theorem chunked_naming (ln : String) (s : Slice) (i : Nat) (hi : i < 10000) :
    sizeFilterChunkFile ln i s = (tifName (ln ++ "_sizefiltered_TP") i, cast16 s) ∧
    saveLabelsChunkFile ln i s = (tifName (ln ++ "_TP") i, cast16 s) ∧
    smoothChunkFile ln i s = (tifName (ln ++ "_smoothed_slice") i, cast16 s) ∧
    connCompChunkFile ln i s = (tifName (ln ++ "_conn_comp_slice") i, cast16 s) ∧
    largestClusterChunkFile ln i s =
      (tifName (ln ++ "_largest_cluster_slice") i, cast16 s) ∧
    largestFragmentsChunkFile ln i s =
      (tifName (ln ++ "_largest_fragments_slice") i, s) ∧
    (zfill 4 (pyStr i)).length = 4 ∧
    pyEndsWith (smoothChunkFile ln i s).1 ".tif" = true := by
  refine ⟨rfl, rfl, rfl, rfl, rfl, rfl, zfill_pyStr_length i hi, ?_⟩
  exact tifName_endsWith (ln ++ "_smoothed_slice") i

/-- Witness for the amended C5 at layer name `x`, slice `[7]`, timepoint 3. -/
theorem chunked_naming_witness :
    sizeFilterChunkFile "x" 3 [7] = (tifName ("x" ++ "_sizefiltered_TP") 3, cast16 [7]) ∧
    saveLabelsChunkFile "x" 3 [7] = (tifName ("x" ++ "_TP") 3, cast16 [7]) ∧
    smoothChunkFile "x" 3 [7] = (tifName ("x" ++ "_smoothed_slice") 3, cast16 [7]) ∧
    connCompChunkFile "x" 3 [7] = (tifName ("x" ++ "_conn_comp_slice") 3, cast16 [7]) ∧
    largestClusterChunkFile "x" 3 [7] =
      (tifName ("x" ++ "_largest_cluster_slice") 3, cast16 [7]) ∧
    largestFragmentsChunkFile "x" 3 [7] =
      (tifName ("x" ++ "_largest_fragments_slice") 3, [7]) ∧
    (zfill 4 (pyStr 3)).length = 4 ∧
    pyEndsWith (smoothChunkFile "x" 3 [7]).1 ".tif" = true :=
  chunked_naming "x" [7] 3 (by norm_num)

/-! ## Output-directory precondition (`segmentation/widget.py` /
`size_filter_widget.py`)

`SegmentationWidgets._save_labels` refuses to run on a chunked volume when no
output directory is configured: it shows a message box and returns `False`
without touching any state.  `SizeFilterWidget._delete_objects` (and the other
chunked operations) instead *prompt* for a directory with
`QFileDialog.getExistingDirectory` and then proceed. -/

/-- The widget state the chunked operations read and mutate: the configured
output directory, the directories written on disk, the viewer's layer list and
the active selection. -/
structure ChunkState where
  outputdir : Option String
  fsDirs : List (String × List (String × Slice))
  layers : List String
  selected : String

/-- `_save_labels` on a chunked volume: with no output directory configured it
reports `"Please specify an output directory first!"` and returns `False`
without any state change; otherwise it writes one `<name>_TP%04d.tif` per
timepoint into `<outputdir>/<name>_finalresult` and returns `True`. -/
def saveLabelsChunked (st : ChunkState) (ln : String) (chunks : List Slice) :
    ChunkState × Option String × Bool :=
  match st.outputdir with
  | none => (st, some "Please specify an output directory first!", false)
  | some od =>
      ({ st with fsDirs := st.fsDirs ++
          [(od ++ "/" ++ ln ++ "_finalresult",
            chunks.enum.map (fun p => saveLabelsChunkFile ln p.1 p.2))] },
       none, true)

/-- `_delete_objects` on a chunked volume: when no output directory is
configured it opens a directory dialog (whose answer is `dlg`), stores it, and
then proceeds exactly as in the configured case — writing the filtered slices
and registering the new `<name>_sizefiltered` layer as the selection.  `none`
models the per-timepoint filter raising. -/
def deleteObjectsChunked (st : ChunkState) (dlg ln : String)
    (minSize maxSize : Nat) (chunks : List Slice) :
    Option (ChunkState × Option String) :=
  let od := match st.outputdir with
    | none => dlg
    | some o => o
  (chunks.mapM (sizeFilterSlice minSize maxSize)).map (fun filtered =>
    ({ outputdir := some od
       fsDirs := st.fsDirs ++
         [(od ++ "/" ++ ln ++ "_sizefiltered",
           filtered.enum.map (fun p => sizeFilterChunkFile ln p.1 p.2))]
       layers := st.layers ++ [ln ++ "_sizefiltered"]
       selected := ln ++ "_sizefiltered" }, none))

/-- **C8 (counterexample)** Not every chunked operation fails when no output
directory is configured: the size filter, started with `outputdir = None`,
prompts for a directory, writes the output directory, adds a layer, moves the
selection — and reports nothing. -/
theorem outputdir_precondition_cex :
    (⟨none, [], ["x"], "x"⟩ : ChunkState).outputdir = none ∧
    deleteObjectsChunked ⟨none, [], ["x"], "x"⟩ "/chosen" "x" 1 5 [[1]] =
      some (⟨some "/chosen",
        [("/chosen/x_sizefiltered", [("x_sizefiltered_TP0000.tif", [1])])],
        ["x", "x_sizefiltered"], "x_sizefiltered"⟩, none) :=
  ⟨rfl, rfl⟩

/-- **C8 (amended)** With no output directory configured, `_save_labels` on a
chunked volume fails non-fatally with a report to the user and makes no state
change (no directory written, no layer added, selection unchanged), and it
proceeds only when an output directory is configured; the other chunked
operations (here the size filter) instead prompt the user for a directory,
store the answer as the new configured output directory, and proceed with
it. -/
theorem outputdir_precondition (st : ChunkState) (ln dlg : String)
    (chunks : List Slice) (minS maxS : Nat) (hnone : st.outputdir = none) :
    saveLabelsChunked st ln chunks =
      (st, some "Please specify an output directory first!", false) ∧
    (∀ res, deleteObjectsChunked st dlg ln minS maxS chunks = some res →
      res.1.outputdir = some dlg ∧
      res.2 = none ∧
      res.1.layers = st.layers ++ [ln ++ "_sizefiltered"] ∧
      res.1.selected = ln ++ "_sizefiltered") := by
  constructor
  · unfold saveLabelsChunked
    rw [hnone]
  · intro res hres
    unfold deleteObjectsChunked at hres
    rw [hnone] at hres
    rcases hmm : chunks.mapM (sizeFilterSlice minS maxS) with _ | filtered
    · rw [hmm] at hres
      exact absurd hres (by simp)
    · rw [hmm] at hres
      simp only [Option.map_some', Option.some.injEq] at hres
      rw [← hres]
      exact ⟨rfl, rfl, rfl, rfl⟩

/-- Witness for the amended C8 at a concrete unconfigured state. -/
theorem outputdir_precondition_witness :
    saveLabelsChunked ⟨none, [], ["x"], "x"⟩ "x" [[1]] =
      (⟨none, [], ["x"], "x"⟩, some "Please specify an output directory first!",
        false) ∧
    (∀ res, deleteObjectsChunked ⟨none, [], ["x"], "x"⟩ "/chosen" "x" 1 5 [[1]] =
        some res →
      res.1.outputdir = some "/chosen" ∧
      res.2 = none ∧
      res.1.layers = (⟨none, [], ["x"], "x"⟩ : ChunkState).layers ++
        ["x" ++ "_sizefiltered"] ∧
      res.1.selected = "x" ++ "_sizefiltered") :=
  outputdir_precondition ⟨none, [], ["x"], "x"⟩ "x" "/chosen" [[1]] 1 5 rfl

/-! ## Connected-component labeling
(`segmentation/connected_components.py`, wrapping `skimage.measure.label`)

`skimage.measure.label` considers two voxels connected when they are grid
neighbours and carry the same (nonzero) value, and assigns each maximal such
region a unique positive id, in raster-scan first-encounter order, with
background 0 untouched.  The voxel grid is embedded as its adjacency graph: a
symmetric `adj : Fin n → Fin n → Bool` over the flattened voxel indices (the
concrete 26-connectivity grid used by `label` on 3D data is `grid26Adj`
below).  The labeling itself is implemented and verified here: region
membership is computed as a reachability fixpoint, and ids are assigned by
the rank of each region's minimal voxel. -/

section ConnComp

variable {n : Nat}

/-- One labeling step of `skimage.measure.label`: `u` and `v` are neighbours
and carry the same nonzero value. -/
def valStep (adj : Fin n → Fin n → Bool) (g : Fin n → Nat) (u v : Fin n) : Prop :=
  adj u v = true ∧ g u = g v ∧ g u ≠ 0

instance valStepDec (adj : Fin n → Fin n → Bool) (g : Fin n → Nat)
    (u v : Fin n) : Decidable (valStep adj g u v) :=
  decidable_of_iff (adj u v = true ∧ g u = g v ∧ g u ≠ 0) Iff.rfl

/-- Connectivity of the foreground mask (ignoring label values): the relation
underlying a "maximal connected foreground region". -/
def fgStep (adj : Fin n → Fin n → Bool) (g : Fin n → Nat) (u v : Fin n) : Prop :=
  adj u v = true ∧ g u ≠ 0 ∧ g v ≠ 0

/-- Expand a voxel set by all `valStep`-neighbours. -/
def expand (adj : Fin n → Fin n → Bool) (g : Fin n → Nat)
    (s : Finset (Fin n)) : Finset (Fin n) :=
  s ∪ Finset.univ.filter (fun w => ∃ u ∈ s, valStep adj g u w)

/-- The region of `v`: `n`-fold expansion of `{v}` (a fixpoint is reached
after at most `n` rounds). -/
def reachSet (adj : Fin n → Fin n → Bool) (g : Fin n → Nat) (v : Fin n) :
    Finset (Fin n) :=
  (expand adj g)^[n] {v}

variable (adj : Fin n → Fin n → Bool) (g : Fin n → Nat)

theorem subset_expand (s : Finset (Fin n)) : s ⊆ expand adj g s :=
  Finset.subset_union_left

theorem mem_expand {s : Finset (Fin n)} {w : Fin n} :
    w ∈ expand adj g s ↔ w ∈ s ∨ ∃ u ∈ s, valStep adj g u w := by
  unfold expand
  simp

theorem expand_fixed_iterate {s : Finset (Fin n)} (h : expand adj g s = s) :
    ∀ k, (expand adj g)^[k] s = s := by
  intro k
  induction k with
  | zero => rfl
  | succ k ih => rw [Function.iterate_succ_apply', ih, h]

theorem subset_iterate (s : Finset (Fin n)) (k : Nat) :
    s ⊆ (expand adj g)^[k] s := by
  induction k with
  | zero => exact subset_rfl
  | succ k ih =>
    rw [Function.iterate_succ_apply']
    exact ih.trans (subset_expand adj g _)

theorem iterate_succ_ne_card {s : Finset (Fin n)}
    (h : ∀ k, k ≤ n → (expand adj g)^[k + 1] s ≠ (expand adj g)^[k] s)
    (hs : s.Nonempty) : False := by
  have hgrow : ∀ k, k ≤ n → k + s.card ≤ ((expand adj g)^[k] s).card := by
    intro k
    induction k with
    | zero => intro _; simp
    | succ k ih =>
      intro hk
      have h1 := ih (by omega)
      have hssub : (expand adj g)^[k] s ⊂ (expand adj g)^[k + 1] s := by
        refine Finset.ssubset_iff_subset_ne.mpr ⟨?_, ?_⟩
        · rw [Function.iterate_succ_apply']
          exact subset_expand adj g _
        · exact (h k (by omega)).symm
      have := Finset.card_lt_card hssub
      omega
  have hcard : n + s.card ≤ ((expand adj g)^[n] s).card := hgrow n le_rfl
  have hle : ((expand adj g)^[n] s).card ≤ n := by
    have := Finset.card_le_univ ((expand adj g)^[n] s)
    simpa using this
  have : 1 ≤ s.card := Finset.card_pos.mpr hs
  omega

theorem reach_fixed (s : Finset (Fin n)) (hs : s.Nonempty) :
    expand adj g ((expand adj g)^[n] s) = (expand adj g)^[n] s := by
  by_contra hfix
  refine iterate_succ_ne_card adj g ?_ hs
  intro k hk hkfix
  -- a fixpoint at stage k propagates to stage n, contradicting hfix
  have hkfix' : expand adj g ((expand adj g)^[k] s) = (expand adj g)^[k] s := by
    rw [← Function.iterate_succ_apply' (expand adj g) k s]
    exact hkfix
  have hkn : (expand adj g)^[n] s = (expand adj g)^[k] s := by
    have h2 : (expand adj g)^[(n - k) + k] s = (expand adj g)^[k] s := by
      rw [Function.iterate_add_apply]
      exact expand_fixed_iterate adj g hkfix' (n - k)
    have hsplit : n - k + k = n := by omega
    rw [hsplit] at h2
    exact h2
  apply hfix
  rw [hkn]
  exact hkfix'

theorem mem_reachSet_self (v : Fin n) : v ∈ reachSet adj g v :=
  subset_iterate adj g {v} n (Finset.mem_singleton_self v)

theorem iterate_to_rtg (v : Fin n) : ∀ k w, w ∈ (expand adj g)^[k] {v} →
    Relation.ReflTransGen (valStep adj g) v w := by
  intro k
  induction k with
  | zero =>
    intro w hw
    have : w = v := Finset.mem_singleton.mp (by simpa using hw)
    subst this
    exact Relation.ReflTransGen.refl
  | succ k ih =>
    intro w hw
    rw [Function.iterate_succ_apply'] at hw
    rcases (mem_expand adj g).mp hw with hmem | ⟨u, hu, hstep⟩
    · exact ih w hmem
    · exact (ih u hu).tail hstep

theorem reachSet_to_rtg {v w : Fin n} (h : w ∈ reachSet adj g v) :
    Relation.ReflTransGen (valStep adj g) v w :=
  iterate_to_rtg adj g v n w h

theorem rtg_to_reachSet {v w : Fin n}
    (h : Relation.ReflTransGen (valStep adj g) v w) :
    w ∈ reachSet adj g v := by
  induction h with
  | refl => exact mem_reachSet_self adj g v
  | tail hab hbc ih =>
    have hfix := reach_fixed adj g ({v} : Finset (Fin n))
      ⟨v, Finset.mem_singleton_self v⟩
    unfold reachSet
    rw [← hfix]
    exact (mem_expand adj g).mpr (Or.inr ⟨_, ih, hbc⟩)

theorem mem_reachSet_iff {v w : Fin n} :
    w ∈ reachSet adj g v ↔ Relation.ReflTransGen (valStep adj g) v w :=
  ⟨reachSet_to_rtg adj g, rtg_to_reachSet adj g⟩

theorem valStep_symm (hsym : ∀ u v, adj u v = adj v u) {u v : Fin n}
    (h : valStep adj g u v) : valStep adj g v u := by
  obtain ⟨ha, he, hne⟩ := h
  exact ⟨by rw [hsym v u]; exact ha, he.symm, by rwa [← he]⟩

theorem rtg_symm (hsym : ∀ u v, adj u v = adj v u) {u v : Fin n}
    (h : Relation.ReflTransGen (valStep adj g) u v) :
    Relation.ReflTransGen (valStep adj g) v u := by
  induction h with
  | refl => exact Relation.ReflTransGen.refl
  | tail hab hbc ih =>
    exact Relation.ReflTransGen.trans
      (Relation.ReflTransGen.single (valStep_symm adj g hsym hbc)) ih

theorem reachSet_eq_of_rtg (hsym : ∀ u v, adj u v = adj v u) {u v : Fin n}
    (h : Relation.ReflTransGen (valStep adj g) u v) :
    reachSet adj g u = reachSet adj g v := by
  ext w
  rw [mem_reachSet_iff, mem_reachSet_iff]
  constructor
  · intro huw
    exact Relation.ReflTransGen.trans (rtg_symm adj g hsym h) huw
  · intro hvw
    exact Relation.ReflTransGen.trans h hvw

/-- The representative of a voxel's region: the minimal voxel index reachable
from it (the first voxel of the region in raster-scan order). -/
def rep (v : Fin n) : Fin n :=
  (reachSet adj g v).min' ⟨v, mem_reachSet_self adj g v⟩

/-- The set of region representatives of the foreground. -/
def fgReps : Finset (Fin n) :=
  (Finset.univ.filter (fun v => g v ≠ 0)).image (rep adj g)

/-- The label image produced by `skimage.measure.label`: background voxels get
0; every foreground voxel gets `1 +` the number of regions whose
representative precedes its own in raster-scan order — i.e. regions are
numbered `1, 2, ...` in first-encounter order. -/
def labelImg (v : Fin n) : Nat :=
  if g v = 0 then 0
  else ((fgReps adj g).filter (fun r => r < rep adj g v)).card + 1

theorem labelImg_bg {v : Fin n} (h : g v = 0) : labelImg adj g v = 0 := by
  unfold labelImg
  rw [if_pos h]

theorem labelImg_fg_pos {v : Fin n} (h : g v ≠ 0) : 0 < labelImg adj g v := by
  unfold labelImg
  rw [if_neg h]
  omega

theorem rep_eq_of_rtg (hsym : ∀ u v, adj u v = adj v u) {u v : Fin n}
    (h : Relation.ReflTransGen (valStep adj g) u v) :
    rep adj g u = rep adj g v := by
  unfold rep
  congr 1
  exact reachSet_eq_of_rtg adj g hsym h

theorem rep_mem_reachSet (v : Fin n) : rep adj g v ∈ reachSet adj g v :=
  Finset.min'_mem _ _

theorem rtg_of_rep_eq (hsym : ∀ u v, adj u v = adj v u) {u v : Fin n}
    (h : rep adj g u = rep adj g v) :
    Relation.ReflTransGen (valStep adj g) u v := by
  have hu : Relation.ReflTransGen (valStep adj g) u (rep adj g u) :=
    reachSet_to_rtg adj g (rep_mem_reachSet adj g u)
  have hv : Relation.ReflTransGen (valStep adj g) v (rep adj g v) :=
    reachSet_to_rtg adj g (rep_mem_reachSet adj g v)
  rw [← h] at hv
  exact Relation.ReflTransGen.trans hu (rtg_symm adj g hsym hv)

theorem rep_mem_fgReps {v : Fin n} (h : g v ≠ 0) :
    rep adj g v ∈ fgReps adj g := by
  unfold fgReps
  exact Finset.mem_image.mpr ⟨v, Finset.mem_filter.mpr ⟨Finset.mem_univ v, h⟩, rfl⟩

/-- The rank map `r ↦ #{r' ∈ reps | r' < r}` is strictly monotone, hence the
assigned ids are distinct across regions. -/
theorem rank_strict_mono {r₁ r₂ : Fin n} (h₁ : r₁ ∈ fgReps adj g)
    (hlt : r₁ < r₂) :
    ((fgReps adj g).filter (fun r => r < r₁)).card <
      ((fgReps adj g).filter (fun r => r < r₂)).card := by
  refine Finset.card_lt_card (Finset.ssubset_iff_subset_ne.mpr ⟨?_, ?_⟩)
  · intro x hx
    rcases Finset.mem_filter.mp hx with ⟨hmem, hxlt⟩
    exact Finset.mem_filter.mpr ⟨hmem, lt_trans hxlt hlt⟩
  · intro hcon
    have h1 : r₁ ∈ (fgReps adj g).filter (fun r => r < r₂) :=
      Finset.mem_filter.mpr ⟨h₁, hlt⟩
    rw [← hcon] at h1
    exact absurd (Finset.mem_filter.mp h1).2 (lt_irrefl r₁)

theorem labelImg_eq_iff (hsym : ∀ u v, adj u v = adj v u) {u v : Fin n}
    (hu : g u ≠ 0) (hv : g v ≠ 0) :
    (labelImg adj g u = labelImg adj g v ↔
      Relation.ReflTransGen (valStep adj g) u v) := by
  unfold labelImg
  rw [if_neg hu, if_neg hv]
  constructor
  · intro h
    refine rtg_of_rep_eq adj g hsym ?_
    rcases lt_trichotomy (rep adj g u) (rep adj g v) with hlt | heq | hgt
    · exact absurd h (by
        have := rank_strict_mono adj g (rep_mem_fgReps adj g hu) hlt
        omega)
    · exact heq
    · exact absurd h (by
        have := rank_strict_mono adj g (rep_mem_fgReps adj g hv) hgt
        omega)
  · intro h
    rw [rep_eq_of_rtg adj g hsym h]

theorem rtg_val_eq {u v : Fin n}
    (h : Relation.ReflTransGen (valStep adj g) u v) : g u = g v := by
  induction h with
  | refl => rfl
  | tail hab hbc ih => rw [ih, hbc.2.1]

/-- Relabeling a label image leaves the step relation unchanged: two voxels
are neighbours of equal nonzero value in the output iff they were in the
input (equal output ids mean same region, and a region is equal-valued). -/
theorem valStep_relabel_iff (hsym : ∀ u v, adj u v = adj v u) (u v : Fin n) :
    valStep adj (labelImg adj g) u v ↔ valStep adj g u v := by
  constructor
  · rintro ⟨ha, he, hne⟩
    have hu : g u ≠ 0 := by
      intro hcon
      exact hne (labelImg_bg adj g hcon)
    have hv : g v ≠ 0 := by
      intro hcon
      rw [he] at hne
      exact hne (labelImg_bg adj g hcon)
    exact ⟨ha, rtg_val_eq adj g ((labelImg_eq_iff adj g hsym hu hv).mp he), hu⟩
  · rintro ⟨ha, he, hne⟩
    have hv : g v ≠ 0 := he ▸ hne
    refine ⟨ha, ?_, ?_⟩
    · exact (labelImg_eq_iff adj g hsym hne hv).mpr
        (Relation.ReflTransGen.single ⟨ha, he, hne⟩)
    · exact Nat.pos_iff_ne_zero.mp (labelImg_fg_pos adj g hne)

/-- **C7 (amended)** Connected components: background voxels stay 0; every
foreground voxel receives a positive id; two foreground voxels receive the
same id iff they belong to the same maximal connected region of equal
(nonzero) value — so each such region receives exactly one id, unique to it
(note: `skimage.measure.label` joins only equal-valued neighbours, so a
connected foreground region containing several label values receives several
ids); and running the labeling a second time on its own output partitions the
voxels identically (idempotence up to relabeling), the foreground being
preserved exactly. -/
theorem connComp_relabel (hsym : ∀ u v, adj u v = adj v u) :
    (∀ v, g v = 0 → labelImg adj g v = 0) ∧
    (∀ v, g v ≠ 0 → 0 < labelImg adj g v) ∧
    (∀ u v, g u ≠ 0 → g v ≠ 0 →
      (labelImg adj g u = labelImg adj g v ↔
        Relation.ReflTransGen (valStep adj g) u v)) ∧
    (∀ v, labelImg adj g v ≠ 0 ↔ g v ≠ 0) ∧
    (∀ u v,
      Relation.ReflTransGen (valStep adj (labelImg adj g)) u v ↔
        Relation.ReflTransGen (valStep adj g) u v) := by
  refine ⟨fun v => labelImg_bg adj g,
    fun v => labelImg_fg_pos adj g,
    fun u v hu hv => labelImg_eq_iff adj g hsym hu hv, ?_, ?_⟩
  · intro v
    constructor
    · intro hne hcon
      exact hne (labelImg_bg adj g hcon)
    · intro hne
      exact Nat.pos_iff_ne_zero.mp (labelImg_fg_pos adj g hne)
  · intro u v
    constructor
    · exact Relation.ReflTransGen.mono
        (fun a b h => (valStep_relabel_iff adj g hsym a b).mp h)
    · exact Relation.ReflTransGen.mono
        (fun a b h => (valStep_relabel_iff adj g hsym a b).mpr h)

end ConnComp

/-- One-step closeness of two coordinates. -/
def near (a b : Nat) : Bool := a ≤ b + 1 && b ≤ a + 1

/-- The 26-connectivity (full connectivity) used by `skimage.measure.label` on
a 3D array of shape `(nz, ny, nx)`, over flattened voxel indices: two distinct
voxels are adjacent when every coordinate differs by at most 1. -/
def grid26Adj (nz ny nx : Nat) (u v : Fin (nz * ny * nx)) : Bool :=
  (u != v) &&
  near (u.val / (ny * nx)) (v.val / (ny * nx)) &&
  near (u.val % (ny * nx) / nx) (v.val % (ny * nx) / nx) &&
  near (u.val % nx) (v.val % nx)

/-- **C7 (counterexample)** A maximal connected *foreground* region does not
always receive exactly one id: on a `(1,1,2)` grid holding the labels
`[1, 2]`, both voxels form a single connected foreground region, yet
`label` assigns them two different ids, because it joins only equal-valued
neighbours. -/
theorem connComp_unique_id_cex :
    Relation.ReflTransGen (fgStep (grid26Adj 1 1 2) ![1, 2]) 0 1 ∧
    labelImg (grid26Adj 1 1 2) ![1, 2] 0 ≠ labelImg (grid26Adj 1 1 2) ![1, 2] 1 := by
  refine ⟨Relation.ReflTransGen.single ⟨?_, ?_, ?_⟩, ?_⟩ <;> decide

/-- Witness for the amended C7 on the concrete `(1,1,2)` volume `[1, 2]`. -/
theorem connComp_relabel_witness :
    (∀ v, (![1, 2] : Fin (1 * 1 * 2) → Nat) v = 0 →
      labelImg (grid26Adj 1 1 2) ![1, 2] v = 0) ∧
    (∀ v, (![1, 2] : Fin (1 * 1 * 2) → Nat) v ≠ 0 →
      0 < labelImg (grid26Adj 1 1 2) ![1, 2] v) ∧
    (∀ u v, (![1, 2] : Fin (1 * 1 * 2) → Nat) u ≠ 0 →
      (![1, 2] : Fin (1 * 1 * 2) → Nat) v ≠ 0 →
      (labelImg (grid26Adj 1 1 2) ![1, 2] u = labelImg (grid26Adj 1 1 2) ![1, 2] v ↔
        Relation.ReflTransGen (valStep (grid26Adj 1 1 2) ![1, 2]) u v)) ∧
    (∀ v, labelImg (grid26Adj 1 1 2) ![1, 2] v ≠ 0 ↔
      (![1, 2] : Fin (1 * 1 * 2) → Nat) v ≠ 0) ∧
    (∀ u v,
      Relation.ReflTransGen
          (valStep (grid26Adj 1 1 2) (labelImg (grid26Adj 1 1 2) ![1, 2])) u v ↔
        Relation.ReflTransGen (valStep (grid26Adj 1 1 2) ![1, 2]) u v) :=
  connComp_relabel (grid26Adj 1 1 2) ![1, 2] (by decide)

/-! ## Keep-largest-cluster (`ConnectedComponents._keep_largest_cluster`)

`mask = current_stack > 0; labeled = label(mask); props = np.bincount(labeled.flat);
props[0] = 0; largest_label = props.argmax();
largest_cluster = (labeled == largest_label) * current_stack`. -/

/-- `mask = current_stack > 0`, as the 0/1 image handed to `label`. -/
def maskOf {n : Nat} (g : Fin n → Nat) (v : Fin n) : Nat := if g v ≠ 0 then 1 else 0

/-- The maximum of a list of naturals (0 on empty). -/
def maxList (l : List Nat) : Nat := l.foldr max 0

/-- `props = np.bincount(flat); props[0] = 0`: entry `k` counts the
occurrences of `k`, except that entry 0 is zeroed to ignore background. -/
def bincountZero (l : List Nat) : List Nat :=
  (List.range (maxList l + 1)).map (fun k => if k = 0 then 0 else l.count k)

/-- `np.argmax`: the index of the first occurrence of the maximum. -/
def argmax (l : List Nat) : Nat := l.findIdx (fun x => x == maxList l)

/-- `labeled.flat` for `labeled = label(mask)`. -/
def flatLabels {n : Nat} (adj : Fin n → Fin n → Bool) (g : Fin n → Nat) : List Nat :=
  (List.finRange n).map (labelImg adj (maskOf g))

/-- `largest_label = props.argmax()`. -/
def largestLabel {n : Nat} (adj : Fin n → Fin n → Bool) (g : Fin n → Nat) : Nat :=
  argmax (bincountZero (flatLabels adj g))

/-- `largest_cluster = (labeled == largest_label) * current_stack`. -/
def keepLargestCluster {n : Nat} (adj : Fin n → Fin n → Bool) (g : Fin n → Nat)
    (v : Fin n) : Nat :=
  if labelImg adj (maskOf g) v = largestLabel adj g then g v else 0

theorem le_maxList {l : List Nat} {x : Nat} (h : x ∈ l) : x ≤ maxList l := by
  induction l with
  | nil => simp at h
  | cons y ys ih =>
    rcases List.mem_cons.mp h with rfl | hmem
    · exact le_max_left _ _
    · exact le_trans (ih hmem) (le_max_right _ _)

theorem maxList_mem {l : List Nat} (h : l ≠ []) : maxList l ∈ l := by
  induction l with
  | nil => exact absurd rfl h
  | cons y ys ih =>
    by_cases hys : ys = []
    · subst hys
      show max y (maxList []) ∈ [y]
      simp [maxList]
    · rcases le_total y (maxList ys) with hle | hle
      · show max y (maxList ys) ∈ y :: ys
        rw [max_eq_right hle]
        exact List.mem_cons_of_mem y (ih hys)
      · show max y (maxList ys) ∈ y :: ys
        rw [max_eq_left hle]
        exact List.mem_cons_self y ys

theorem argmax_lt {l : List Nat} (h : l ≠ []) : argmax l < l.length :=
  List.findIdx_lt_length_of_exists ⟨maxList l, maxList_mem h, beq_self_eq_true _⟩

theorem argmax_getElem {l : List Nat} (h : l ≠ []) :
    l.get ⟨argmax l, argmax_lt h⟩ = maxList l := by
  have hw : l.findIdx (fun x => x == maxList l) < l.length := argmax_lt h
  have hp := @List.findIdx_getElem Nat (fun x => x == maxList l) l hw
  exact eq_of_beq hp

theorem bincountZero_length (l : List Nat) :
    (bincountZero l).length = maxList l + 1 := by
  simp [bincountZero]

theorem bincountZero_getElem (l : List Nat) (k : Nat) (hk : k < maxList l + 1) :
    (bincountZero l).get ⟨k, by rw [bincountZero_length]; exact hk⟩ =
      if k = 0 then 0 else l.count k := by
  simp [bincountZero]

theorem maskOf_ne_zero_iff {n : Nat} (g : Fin n → Nat) (v : Fin n) :
    maskOf g v ≠ 0 ↔ g v ≠ 0 := by
  unfold maskOf
  by_cases h : g v = 0 <;> simp [h]

theorem valStep_maskOf_iff {n : Nat} (adj : Fin n → Fin n → Bool)
    (g : Fin n → Nat) (u v : Fin n) :
    valStep adj (maskOf g) u v ↔ fgStep adj g u v := by
  unfold valStep fgStep maskOf
  by_cases hu : g u = 0 <;> by_cases hv : g v = 0 <;> simp [hu, hv]

theorem rtg_fgStep_last {n : Nat} {adj : Fin n → Fin n → Bool}
    {g : Fin n → Nat} {u v : Fin n}
    (h : Relation.ReflTransGen (fgStep adj g) u v) : u = v ∨ g v ≠ 0 := by
  induction h with
  | refl => exact Or.inl rfl
  | tail hab hbc ih => exact Or.inr hbc.2.2

/-- **C6 (amended)** Keep-largest-cluster, on any volume with at least one
foreground voxel: the output's foreground voxels form a subset (not always a
strict one — see the counterexample) of the input's foreground; retained
voxels keep their input label values; the retained set is nonempty, connected
under foreground connectivity, and closed under it (it is exactly one maximal
connected component of the foreground mask); and its voxel count — the count
of the retained id in the labeled mask — is maximal among all component
ids. -/
theorem keepLargest_spec {n : Nat} (adj : Fin n → Fin n → Bool)
    (g : Fin n → Nat) (hsym : ∀ u v, adj u v = adj v u)
    (hfg : ∃ v, g v ≠ 0) :
    (∀ v, keepLargestCluster adj g v ≠ 0 → keepLargestCluster adj g v = g v) ∧
    (∀ v, g v = 0 → keepLargestCluster adj g v = 0) ∧
    (∃ v, keepLargestCluster adj g v ≠ 0) ∧
    (∀ u v, keepLargestCluster adj g u ≠ 0 → keepLargestCluster adj g v ≠ 0 →
      Relation.ReflTransGen (fgStep adj g) u v) ∧
    (∀ u v, keepLargestCluster adj g u ≠ 0 →
      Relation.ReflTransGen (fgStep adj g) u v →
      keepLargestCluster adj g v ≠ 0) ∧
    (∀ id, id ∈ flatLabels adj g → id ≠ 0 →
      (flatLabels adj g).count id ≤
        (flatLabels adj g).count (largestLabel adj g)) ∧
    ((List.finRange n).map (keepLargestCluster adj g)).countP (fun x => x ≠ 0) =
      (flatLabels adj g).count (largestLabel adj g) := by
  obtain ⟨v₀, hv₀⟩ := hfg
  have hFlen : (flatLabels adj g).length = n := by simp [flatLabels]
  have hFne : flatLabels adj g ≠ [] := by
    intro hcon
    rw [hcon] at hFlen
    have := Fin.pos v₀
    simp at hFlen
    omega
  have hPne : bincountZero (flatLabels adj g) ≠ [] := by
    intro hcon
    have := bincountZero_length (flatLabels adj g)
    rw [hcon] at this
    simp at this
  have hLLlt : largestLabel adj g < (bincountZero (flatLabels adj g)).length :=
    argmax_lt hPne
  have hLLle : largestLabel adj g ≤ maxList (flatLabels adj g) := by
    have := hLLlt
    rw [bincountZero_length] at this
    omega
  have hPLL : (bincountZero (flatLabels adj g)).get ⟨largestLabel adj g, hLLlt⟩ =
      maxList (bincountZero (flatLabels adj g)) := argmax_getElem hPne
  have hL0 : labelImg adj (maskOf g) v₀ ≠ 0 :=
    Nat.pos_iff_ne_zero.mp
      (labelImg_fg_pos adj (maskOf g) ((maskOf_ne_zero_iff g v₀).mpr hv₀))
  have hL0mem : labelImg adj (maskOf g) v₀ ∈ flatLabels adj g :=
    List.mem_map.mpr ⟨v₀, List.mem_finRange v₀, rfl⟩
  have hL0le : labelImg adj (maskOf g) v₀ ≤ maxList (flatLabels adj g) :=
    le_maxList hL0mem
  have hcount0 : 0 < (flatLabels adj g).count (labelImg adj (maskOf g) v₀) :=
    List.count_pos_iff.mpr hL0mem
  have hPv0 : (bincountZero (flatLabels adj g)).get
      ⟨labelImg adj (maskOf g) v₀, by rw [bincountZero_length]; omega⟩ =
      (flatLabels adj g).count (labelImg adj (maskOf g) v₀) := by
    have := bincountZero_getElem (flatLabels adj g)
      (labelImg adj (maskOf g) v₀) (by omega)
    rw [if_neg hL0] at this
    exact this
  have hmaxP : 1 ≤ maxList (bincountZero (flatLabels adj g)) := by
    have hmem : (bincountZero (flatLabels adj g)).get
        ⟨labelImg adj (maskOf g) v₀, by rw [bincountZero_length]; omega⟩ ∈
        bincountZero (flatLabels adj g) := List.get_mem _ _ _
    have hle := le_maxList hmem
    rw [hPv0] at hle
    omega
  have hLL0 : largestLabel adj g ≠ 0 := by
    intro hcon
    have hval := bincountZero_getElem (flatLabels adj g) (largestLabel adj g)
      (by omega)
    rw [if_pos hcon] at hval
    have hmax0 : maxList (bincountZero (flatLabels adj g)) = 0 := by
      rw [← hPLL]
      exact hval
    omega
  have hPLLval : (flatLabels adj g).count (largestLabel adj g) =
      maxList (bincountZero (flatLabels adj g)) := by
    have h1 := bincountZero_getElem (flatLabels adj g) (largestLabel adj g)
      (by omega)
    rw [if_neg hLL0] at h1
    rw [← h1]
    exact hPLL
  have hcntmax : ∀ id ∈ flatLabels adj g, id ≠ 0 →
      (flatLabels adj g).count id ≤
        (flatLabels adj g).count (largestLabel adj g) := by
    intro id hid hid0
    have hidle : id ≤ maxList (flatLabels adj g) := le_maxList hid
    have h1 := bincountZero_getElem (flatLabels adj g) id (by omega)
    rw [if_neg hid0] at h1
    have hmem : (bincountZero (flatLabels adj g)).get
        ⟨id, by rw [bincountZero_length]; omega⟩ ∈
        bincountZero (flatLabels adj g) := List.get_mem _ _ _
    have hle := le_maxList hmem
    rw [h1] at hle
    omega
  have hLLmem : largestLabel adj g ∈ flatLabels adj g :=
    List.count_pos_iff.mp (by omega)
  have hLLfg : ∀ v, labelImg adj (maskOf g) v = largestLabel adj g → g v ≠ 0 := by
    intro v hLv hcon
    have hbg : labelImg adj (maskOf g) v = 0 :=
      labelImg_bg adj (maskOf g) (by unfold maskOf; simp [hcon])
    rw [hLv] at hbg
    exact hLL0 hbg
  have hout_iff : ∀ v, keepLargestCluster adj g v ≠ 0 ↔
      labelImg adj (maskOf g) v = largestLabel adj g := by
    intro v
    unfold keepLargestCluster
    by_cases hL : labelImg adj (maskOf g) v = largestLabel adj g
    · rw [if_pos hL]
      exact ⟨fun _ => hL, fun _ => hLLfg v hL⟩
    · rw [if_neg hL]
      simp [hL]
  refine ⟨?_, ?_, ?_, ?_, ?_, hcntmax, ?_⟩
  · intro v h
    unfold keepLargestCluster at h ⊢
    by_cases hL : labelImg adj (maskOf g) v = largestLabel adj g
    · rw [if_pos hL]
    · rw [if_neg hL] at h
      exact absurd rfl h
  · intro v hg
    unfold keepLargestCluster
    by_cases hL : labelImg adj (maskOf g) v = largestLabel adj g
    · rw [if_pos hL]
      exact hg
    · rw [if_neg hL]
  · rcases List.mem_map.mp hLLmem with ⟨v₁, _, hv₁⟩
    exact ⟨v₁, (hout_iff v₁).mpr hv₁⟩
  · intro u v hu hv
    have hLu := (hout_iff u).mp hu
    have hLv := (hout_iff v).mp hv
    have hgu : g u ≠ 0 := hLLfg u hLu
    have hgv : g v ≠ 0 := hLLfg v hLv
    have hmask : Relation.ReflTransGen (valStep adj (maskOf g)) u v :=
      (labelImg_eq_iff adj (maskOf g) hsym ((maskOf_ne_zero_iff g u).mpr hgu)
        ((maskOf_ne_zero_iff g v).mpr hgv)).mp (hLu.trans hLv.symm)
    exact Relation.ReflTransGen.mono
      (fun a b h => (valStep_maskOf_iff adj g a b).mp h) hmask
  · intro u v hu hrtg
    rcases rtg_fgStep_last hrtg with rfl | hgv
    · exact hu
    · have hLu := (hout_iff u).mp hu
      have hgu : g u ≠ 0 := hLLfg u hLu
      have hmask : Relation.ReflTransGen (valStep adj (maskOf g)) u v :=
        Relation.ReflTransGen.mono
          (fun a b h => (valStep_maskOf_iff adj g a b).mpr h) hrtg
      have hLuv : labelImg adj (maskOf g) u = labelImg adj (maskOf g) v :=
        (labelImg_eq_iff adj (maskOf g) hsym ((maskOf_ne_zero_iff g u).mpr hgu)
          ((maskOf_ne_zero_iff g v).mpr hgv)).mpr hmask
    
      exact (hout_iff v).mpr (by rw [← hLuv]; exact hLu)
  · rw [List.countP_map, List.count_eq_countP]
    show List.countP _ (List.finRange n) =
      List.countP _ ((List.finRange n).map (labelImg adj (maskOf g)))
    rw [List.countP_map]
    apply List.countP_congr
    intro v _
    simp only [Function.comp_apply, ne_eq, decide_eq_true_eq, beq_iff_eq,
      decide_not, Bool.not_eq_true', decide_eq_false_iff_not]
    exact hout_iff v

/-- **C6 (counterexample)** The output's foreground is not always a *strict*
subset of the input's: on a single-voxel volume holding label 5, the whole
(unique) component is retained, so the output equals the input and the
foreground sets coincide. -/
theorem keepLargest_strict_cex :
    (∀ v : Fin (1 * 1 * 1), keepLargestCluster (grid26Adj 1 1 1) ![5] v =
      (![5] : Fin (1 * 1 * 1) → Nat) v) ∧
    (![5] : Fin (1 * 1 * 1) → Nat) 0 ≠ 0 := by
  constructor <;> decide

/-- Witness for the amended C6 on a `(1,1,2)` volume with one 2-voxel object. -/
theorem keepLargest_spec_witness :
    (∀ v, keepLargestCluster (grid26Adj 1 1 2) ![3, 3] v ≠ 0 →
      keepLargestCluster (grid26Adj 1 1 2) ![3, 3] v =
        (![3, 3] : Fin (1 * 1 * 2) → Nat) v) ∧
    (∀ v, (![3, 3] : Fin (1 * 1 * 2) → Nat) v = 0 →
      keepLargestCluster (grid26Adj 1 1 2) ![3, 3] v = 0) ∧
    (∃ v, keepLargestCluster (grid26Adj 1 1 2) ![3, 3] v ≠ 0) ∧
    (∀ u v, keepLargestCluster (grid26Adj 1 1 2) ![3, 3] u ≠ 0 →
      keepLargestCluster (grid26Adj 1 1 2) ![3, 3] v ≠ 0 →
      Relation.ReflTransGen (fgStep (grid26Adj 1 1 2) ![3, 3]) u v) ∧
    (∀ u v, keepLargestCluster (grid26Adj 1 1 2) ![3, 3] u ≠ 0 →
      Relation.ReflTransGen (fgStep (grid26Adj 1 1 2) ![3, 3]) u v →
      keepLargestCluster (grid26Adj 1 1 2) ![3, 3] v ≠ 0) ∧
    (∀ id, id ∈ flatLabels (grid26Adj 1 1 2) ![3, 3] → id ≠ 0 →
      (flatLabels (grid26Adj 1 1 2) ![3, 3]).count id ≤
        (flatLabels (grid26Adj 1 1 2) ![3, 3]).count
          (largestLabel (grid26Adj 1 1 2) ![3, 3])) ∧
    ((List.finRange (1 * 1 * 2)).map
        (keepLargestCluster (grid26Adj 1 1 2) ![3, 3])).countP (fun x => x ≠ 0) =
      (flatLabels (grid26Adj 1 1 2) ![3, 3]).count
        (largestLabel (grid26Adj 1 1 2) ![3, 3]) :=
  keepLargest_spec (grid26Adj 1 1 2) ![3, 3] (by decide) ⟨0, by decide⟩
